import Mathlib

/-!
Shallow embedding of the speech-to-text core in
`src/frontend/src-tauri/src/audio/stt.rs`, together with proofs about the
overlap-resolution algorithm, the transcription routing, and the per-segment
result construction.

Conventions of the embedding:
* Rust `&str` / `String` values are Lean `String`s (a `String` is a list of
  characters; for the ASCII inputs used in all concrete witnesses the Rust
  byte length and the Lean character length coincide, so Rust `str::len()`
  is modelled by `String.length`).
* Rust `f32` / `f64` scalars (audio samples, segment times) are modelled as
  rationals; they are only copied or rounded by the code under study.
* `usize` arithmetic is `Nat` arithmetic (`saturating_sub` is `Nat`
  subtraction, which is already truncated).
* Fallible collaborators (`anyhow::Result<String>`) are `Except String String`
  where the error string is the display form of the failure.
* Concurrency, channels, logging and file IO are outside the embedding; the
  functions below model the pure data transformations the claims are about.
-/

/-- Model of Rust `char::is_ascii_punctuation`: the four ASCII punctuation
ranges `!..=/`, `:..=@`, `[..=`+backtick, and `{..=~`. -/
def isAsciiPunct (c : Char) : Bool :=
  (33 ≤ c.toNat && c.toNat ≤ 47) || (58 ≤ c.toNat && c.toNat ≤ 64) ||
  (91 ≤ c.toNat && c.toNat ≤ 96) || (123 ≤ c.toNat && c.toNat ≤ 126)

/-- Model of lower-casing a character (Rust `str::to_lowercase`); the inputs
reaching it in this code are ASCII, where Unicode and ASCII lowercasing
agree. -/
def lowerChar (c : Char) : Char :=
  if 65 ≤ c.toNat ∧ c.toNat ≤ 90 then Char.ofNat (c.toNat + 32) else c

/-- Accumulator-based splitter: the characters of the current word are kept
reversed in `acc`. Empty words are dropped, as Rust `split_whitespace`
does. -/
def splitWsAux : List Char → List Char → List String
  | [], acc => if acc = [] then [] else [String.mk acc.reverse]
  | c :: cs, acc =>
    if c.isWhitespace then
      if acc = [] then splitWsAux cs [] else String.mk acc.reverse :: splitWsAux cs []
    else splitWsAux cs (c :: acc)

/-- Model of Rust `str::split_whitespace`: split at whitespace, dropping empty
pieces. -/
def splitWhitespace (s : String) : List String := splitWsAux s.data []

/-- Model of Rust `[&str]::join(" ")` on the surviving token sequence. -/
def joinWords : List String → String
  | [] => ""
  | [w] => w
  | w :: ws => w ++ " " ++ joinWords ws

/-- One normalized token (`stt.rs` lines 465-470): remove ASCII punctuation,
then lowercase. -/
def normWord (w : String) : String :=
  String.mk ((w.data.filter (fun c => !isAsciiPunct c)).map lowerChar)

/-- `preprocess_words` (`stt.rs` lines 463-474): whitespace-tokenize, normalize
each token, drop tokens that became empty. -/
def preprocess_words (text : String) : List String :=
  ((splitWhitespace text).map normWord).filter (fun w => w ≠ "")

/-- Length of the common token run starting at the heads of two token lists;
this is what the `while ii < len && jj < len && s1[ii] == s2[jj]` extension
loops of `stt.rs` (lines 489-493, 527-531, 199-203) compute on the suffixes
they are started at. -/
def commonRun : List String → List String → Nat
  | x :: xs, y :: ys => if x = y then commonRun xs ys + 1 else 0
  | _, _ => 0

/-- Length of the common word run of `xs` and `ys` starting at positions
`i`, `j`: the extension loop run on the two suffixes. -/
def matchLen (xs ys : List String) (i j : Nat) : Nat :=
  commonRun (xs.drop i) (ys.drop j)

/-- The nested scan order of `find_common_substring_simple`
(`for i in 0..n { for j in 0..m }`): all index pairs in lexicographic
order. -/
def scanPairs (n m : Nat) : List (Nat × Nat) :=
  (List.range n).flatMap (fun i => (List.range m).map (fun j => (i, j)))

/-- One update of the `(max_len, best_match)` state of
`find_common_substring_simple` / `find_common_substring_optimized`
(`if len > max_len { max_len = len; best_match = Some((i, j)) }`). -/
def bestStep (f : Nat × Nat → Nat) (acc : Nat × Option (Nat × Nat)) (p : Nat × Nat) :
    Nat × Option (Nat × Nat) :=
  if acc.1 < f p then (f p, some p) else acc

/-- `find_common_substring_simple` (`stt.rs` lines 477-503): scan every index
pair in lexicographic order, keeping the first strictly-longer match. -/
def find_common_substring_simple (s1_words s2_words : List String) : Option (Nat × Nat) :=
  ((scanPairs s1_words.length s2_words.length).foldl
    (bestStep (fun p => matchLen s1_words s2_words p.1 p.2)) (0, none)).2

/-- `find_common_substring_optimized` (`stt.rs` lines 506-542): for each word
of `s1` in order, visit exactly the positions of `s2` holding the same word in
ascending order (the position map is built by pushing indices in `enumerate`
order), with the same `(max_len, best_match)` update. -/
def find_common_substring_optimized (s1_words s2_words : List String) : Option (Nat × Nat) :=
  (((List.range s1_words.length).flatMap (fun i =>
      ((List.range s2_words.length).filter
        (fun j => s2_words.getD j "" = s1_words.getD i "")).map (fun j => (i, j)))).foldl
    (bestStep (fun p => matchLen s1_words s2_words p.1 p.2)) (0, none)).2

/-- `longest_common_word_substring` (`stt.rs` lines 435-460). -/
def longest_common_word_substring (s1 s2 : String) : Option (Nat × Nat) :=
  if s1 = "" ∨ s2 = "" then none
  else
    let s1_words := preprocess_words s1
    let s2_words := preprocess_words s2
    if s1_words.length < 2 ∨ s2_words.length < 2 then none
    else if s1_words.length * s2_words.length < 1000 then
      find_common_substring_simple s1_words s2_words
    else
      find_common_substring_optimized s1_words s2_words

/-- `AudioInput` (`stt.rs` lines 107-113); samples are modelled as rationals,
the device handle by its display string. -/
structure AudioInput where
  data : List Rat
  sample_rate : Nat
  channels : Nat
  device : String

/-- `SpeechSegment` (from the `pyannote` collaborator, used at lines 376-431):
a voiced slice with its samples, bounds in seconds and speaker embedding. -/
structure SpeechSegment where
  samples : List Rat
  sample_rate : Nat
  start : Rat
  stop : Rat
  embedding : List Rat

/-- `TranscriptionResult` (`stt.rs` lines 115-125). -/
structure TranscriptionResult where
  path : String
  input : AudioInput
  speaker_embedding : List Rat
  transcription : Option String
  timestamp : Nat
  error : Option String
  start_time : Rat
  end_time : Rat

/-- `TranscriptionResult::cleanup_overlap` (`stt.rs` lines 129-160), the exact
overlap variant. -/
def cleanup_overlap (r : TranscriptionResult) (previous_transcript : String) :
    Option (String × String) :=
  match r.transcription with
  | none => none
  | some transcription =>
    if previous_transcript = "" ∨ transcription = "" then none
    else
      match longest_common_word_substring previous_transcript transcription with
      | some (prev_idx, cur_idx) =>
        let new_prev := joinWords ((splitWhitespace previous_transcript).take prev_idx)
        let new_cur := joinWords ((splitWhitespace transcription).drop cur_idx)
        if new_prev ≠ "" ∨ new_cur ≠ "" then some (new_prev, new_cur) else none
      | none => none

/-- One update of the `(max_len, best_match)` state of
`cleanup_overlap_heuristic` (`stt.rs` lines 192-211): positions are compared
first, and an update additionally requires `len >= 3`. -/
def heurStep (pw cw : List String) (acc : Nat × Option (Nat × Nat)) (p : Nat × Nat) :
    Nat × Option (Nat × Nat) :=
  if pw.getD p.1 "" = cw.getD p.2 "" then
    let len := matchLen pw cw p.1 p.2
    if acc.1 < len ∧ 3 ≤ len then (len, some p) else acc
  else acc

/-- The scan order of `cleanup_overlap_heuristic`
(`for i in prev_start..prev_words.len() { for j in 0..curr_end }`). -/
def windowPairs (prevStart prevLen currEnd : Nat) : List (Nat × Nat) :=
  (List.range' prevStart (prevLen - prevStart)).flatMap
    (fun i => (List.range currEnd).map (fun j => (i, j)))

/-- `TranscriptionResult::cleanup_overlap_heuristic` (`stt.rs` lines 175-220).
The `&self` receiver is unused by the source body and is omitted. Note the
search works on raw whitespace tokens and the returned current side starts
after the matched run (`curr_idx + max_len`). -/
def cleanup_overlap_heuristic (prev curr : String) : Option (String × String) :=
  let prev_words := splitWhitespace prev
  let curr_words := splitWhitespace curr
  if prev_words = [] ∨ curr_words = [] then none
  else
    let search_window := min (prev_words.length / 5) 50
    let prev_start := prev_words.length - search_window
    let curr_end := min search_window curr_words.length
    let r := (windowPairs prev_start prev_words.length curr_end).foldl
      (heurStep prev_words curr_words) (0, none)
    match r.2 with
    | some (prev_idx, curr_idx) =>
      some (joinWords (prev_words.take prev_idx),
            joinWords (curr_words.drop (curr_idx + r.1)))
    | none => none

/-- `TranscriptionResult::cleanup_overlap_fast` (`stt.rs` lines 163-172):
route to the heuristic when either text exceeds 10000 characters. -/
def cleanup_overlap_fast (r : TranscriptionResult) (previous_transcript : String) :
    Option (String × String) :=
  match r.transcription with
  | none => none
  | some transcription =>
    if 10000 < previous_transcript.length ∨ 10000 < transcription.length then
      cleanup_overlap_heuristic previous_transcript transcription
    else
      cleanup_overlap r previous_transcript

/-- Modelled from the spec: the engine selector (`AudioTranscriptionEngine`,
declared outside `src/`); the code only distinguishes the remote `Deepgram`
variant from the local whisper engines. -/
inductive AudioTranscriptionEngine where
  | Deepgram : AudioTranscriptionEngine
  | Whisper : AudioTranscriptionEngine
deriving DecidableEq

/-- The two embedded mel-filter resources (`melfilters.bytes`,
`melfilters128.bytes`); their byte contents are irrelevant to the claims and
are abstracted to which table was selected. -/
inductive MelTable where
  | mel80 : MelTable
  | mel128 : MelTable
deriving DecidableEq

/-- The mel-filter selection of `stt` (`stt.rs` lines 72-76): a table indexed
by `num_mel_bins`, defined for 80 and 128 only. -/
def melFilters (numMelBins : Nat) : Option MelTable :=
  if numMelBins = 80 then some MelTable.mel80
  else if numMelBins = 128 then some MelTable.mel128
  else none

/-- `stt` (`stt.rs` lines 60-105). The collaborators are parameters:
`remote` models `transcribe_with_deepgram` as a function of the api key and
the audio buffer, `localW` models `process_with_whisper` as a function of the
loaded mel table and the audio buffer; both return a transcript or the display
form of a failure. An absent api key is passed as `""` (`unwrap_or_default`).
On a remote failure the local engine is attempted on the same buffer. -/
def stt (numMelBins : Nat) (buf : List Rat) (engine : AudioTranscriptionEngine)
    (deepgram_api_key : Option String)
    (remote : String → List Rat → Except String String)
    (localW : MelTable → List Rat → Except String String) : Except String String :=
  match melFilters numMelBins with
  | none => Except.error ("unexpected num_mel_bins " ++ toString numMelBins)
  | some mel =>
    if engine = AudioTranscriptionEngine.Deepgram then
      match remote (deepgram_api_key.getD "") buf with
      | Except.ok transcription => Except.ok transcription
      | Except.error _ => localW mel buf
    else
      localW mel buf

/-- `run_stt` (`stt.rs` lines 376-431). The outcome of the blocking
`stt_sync` call is a parameter (`sttOutcome`), since it is the value the
result record is built from; the error case carries the display form of the
failure. -/
def run_stt (segment : SpeechSegment) (device : String)
    (sttOutcome : Except String String) (path : String) (timestamp : Nat) :
    TranscriptionResult :=
  match sttOutcome with
  | Except.ok transcription =>
    { input :=
        { data := segment.samples
          sample_rate := segment.sample_rate
          channels := 1
          device := device }
      transcription := some transcription
      path := path
      timestamp := timestamp
      error := none
      speaker_embedding := segment.embedding
      start_time := segment.start
      end_time := segment.stop }
  | Except.error e =>
    { input :=
        { data := segment.samples
          sample_rate := segment.sample_rate
          channels := 1
          device := device }
      transcription := none
      path := path
      timestamp := timestamp
      error := some e
      speaker_embedding := []
      start_time := segment.start
      end_time := segment.stop }

/-- Model of Rust `f64::round` (round half away from zero) on rationals,
computed on numerator and denominator so that it evaluates by `decide`. -/
def rustRound (q : Rat) : Int :=
  if 0 ≤ q then (2 * q.num + q.den) / (2 * (q.den : Int))
  else -((2 * (-q.num) + q.den) / (2 * (q.den : Int)))

/-- The per-segment timestamp computed by the dispatch loop
(`stt.rs` lines 338-352): only the `macos` branch offsets the chunk's base
timestamp by `segment.start.round() as u64` (the `as u64` cast saturates
negative values to zero, modelled by `Int.toNat`); every other platform passes
the base timestamp through unchanged. -/
def segment_timestamp (isMacos : Bool) (base : Nat) (start : Rat) : Nat :=
  if isMacos then base + (rustRound start).toNat else base

/-! ### Generic facts about the first-strict-improvement scan

All three searches (`find_common_substring_simple`,
`find_common_substring_optimized`, the heuristic window scan) fold a
`(max_len, best_match)` state over a list of index pairs, updating on a strict
improvement that also clears a threshold (`1` implicitly for the exact
variants, `3` for the heuristic). The lemmas below characterize such folds. -/

/-- Strict lexicographic order on index pairs: the scan order of the nested
loops. -/
def lexLt (p q : Nat × Nat) : Prop :=
  p.1 < q.1 ∨ (p.1 = q.1 ∧ p.2 < q.2)

/-- The thresholded update step: improve on a strictly longer match of length
at least `T`. -/
def stepT (f : Nat × Nat → Nat) (T : Nat) (acc : Nat × Option (Nat × Nat)) (p : Nat × Nat) :
    Nat × Option (Nat × Nat) :=
  if acc.1 < f p ∧ T ≤ f p then (f p, some p) else acc

/-- Maximum of `f` over a list, starting from `b`. -/
def listMaxB (f : Nat × Nat → Nat) (b : Nat) (l : List (Nat × Nat)) : Nat :=
  l.foldr (fun p m => max (f p) m) b

theorem listMaxB_nil (f : Nat × Nat → Nat) (b : Nat) : listMaxB f b [] = b := rfl

theorem listMaxB_cons (f : Nat × Nat → Nat) (b : Nat) (x : Nat × Nat) (t : List (Nat × Nat)) :
    listMaxB f b (x :: t) = max (f x) (listMaxB f b t) := rfl

theorem le_listMaxB_init (f : Nat × Nat → Nat) (b : Nat) (l : List (Nat × Nat)) :
    b ≤ listMaxB f b l := by
  induction l with
  | nil => exact Nat.le_refl b
  | cons x t ih => rw [listMaxB_cons]; omega

theorem le_listMaxB_of_mem (f : Nat × Nat → Nat) (b : Nat) {l : List (Nat × Nat)}
    {p : Nat × Nat} (hp : p ∈ l) : f p ≤ listMaxB f b l := by
  induction l with
  | nil => cases hp
  | cons x t ih =>
    rw [listMaxB_cons]
    rcases List.mem_cons.mp hp with h | h
    · subst h; omega
    · have := ih h; omega

theorem listMaxB_le (f : Nat × Nat → Nat) (b c : Nat) {l : List (Nat × Nat)}
    (hb : b ≤ c) (hl : ∀ p ∈ l, f p ≤ c) : listMaxB f b l ≤ c := by
  induction l with
  | nil => exact hb
  | cons x t ih =>
    rw [listMaxB_cons]
    have h1 : f x ≤ c := hl x (List.mem_cons_self x t)
    have h2 : listMaxB f b t ≤ c := ih (fun p hp => hl p (List.mem_cons_of_mem x hp))
    omega

theorem listMaxB_attained (f : Nat × Nat → Nat) {l : List (Nat × Nat)}
    (h : 0 < listMaxB f 0 l) : ∃ p ∈ l, f p = listMaxB f 0 l := by
  induction l with
  | nil => simp [listMaxB_nil] at h
  | cons x t ih =>
    rw [listMaxB_cons] at h ⊢
    by_cases hx : listMaxB f 0 t ≤ f x
    · exact ⟨x, List.mem_cons_self x t, by omega⟩
    · have ht : 0 < listMaxB f 0 t := by omega
      obtain ⟨p, hp, hfp⟩ := ih ht
      exact ⟨p, List.mem_cons_of_mem x hp, by omega⟩

theorem foldT_low (f : Nat × Nat → Nat) (T : Nat) :
    ∀ (l : List (Nat × Nat)) (b : Nat) (a : Option (Nat × Nat)),
      (∀ p ∈ l, f p ≤ b ∨ f p < T) → l.foldl (stepT f T) (b, a) = (b, a) := by
  intro l
  induction l with
  | nil => intro b a _; rfl
  | cons x t ih =>
    intro b a h
    have hx := h x (List.mem_cons_self x t)
    have hstep : stepT f T (b, a) x = (b, a) := by
      unfold stepT
      have : ¬(b < f x ∧ T ≤ f x) := by omega
      simp [this]
    rw [List.foldl_cons, hstep]
    exact ih b a (fun p hp => h p (List.mem_cons_of_mem x hp))

theorem foldT_high (f : Nat × Nat → Nat) (T : Nat) :
    ∀ (l : List (Nat × Nat)) (b : Nat) (a : Option (Nat × Nat)),
      b < listMaxB f b l → T ≤ listMaxB f b l →
      l.foldl (stepT f T) (b, a) =
        (listMaxB f b l, l.find? (fun p => decide (listMaxB f b l ≤ f p))) := by
  intro l
  induction l with
  | nil => intro b a hb _; rw [listMaxB_nil] at hb; omega
  | cons x t ih =>
    intro b a hb hT
    rw [listMaxB_cons] at hb hT ⊢
    by_cases hup : b < f x ∧ T ≤ f x
    · have hstep : stepT f T (b, a) x = (f x, some x) := by
        unfold stepT; simp [hup]
      rw [List.foldl_cons, hstep]
      by_cases hall : ∀ p ∈ t, f p ≤ f x
      · have hmax : listMaxB f b t ≤ f x :=
          listMaxB_le f b (f x) (by omega) hall
        have hM : max (f x) (listMaxB f b t) = f x := by omega
        rw [hM]
        have hfold : t.foldl (stepT f T) (f x, some x) = (f x, some x) :=
          foldT_low f T t (f x) (some x) (fun p hp => Or.inl (hall p hp))
        rw [hfold, List.find?_cons_of_pos _ (by simp)]
      · push_neg at hall
        obtain ⟨p0, hp0, hfp0⟩ := hall
        have hlt : f x < listMaxB f (f x) t := by
          have := le_listMaxB_of_mem f (f x) hp0
          omega
        have hT' : T ≤ listMaxB f (f x) t := by omega
        rw [ih (f x) (some x) hlt hT']
        have hMM : listMaxB f (f x) t = max (f x) (listMaxB f b t) := by
          have h1 : listMaxB f (f x) t ≤ max (f x) (listMaxB f b t) := by
            apply listMaxB_le
            · omega
            · intro p hp
              have := le_listMaxB_of_mem f b hp
              omega
          have h2 : listMaxB f b t ≤ listMaxB f (f x) t := by
            apply listMaxB_le
            · have := le_listMaxB_init f (f x) t; omega
            · intro p hp; exact le_listMaxB_of_mem f (f x) hp
          have h3 := le_listMaxB_init f (f x) t
          omega
        rw [hMM]
        have hhead : ¬(max (f x) (listMaxB f b t) ≤ f x) := by
          rw [← hMM]; omega
        rw [List.find?_cons_of_neg _ (by simpa using hhead)]
    · have hstep : stepT f T (b, a) x = (b, a) := by
        unfold stepT
        simp only [hup, if_false]
      rw [List.foldl_cons, hstep]
      have hxlow : f x ≤ b ∨ f x < T := by omega
      have hxM : f x < max (f x) (listMaxB f b t) := by
        rcases hxlow with h | h
        · omega
        · omega
      have hM : max (f x) (listMaxB f b t) = listMaxB f b t := by omega
      rw [hM] at hxM ⊢
      rw [ih b a (by omega) (by omega)]
      rw [List.find?_cons_of_neg _ (by simp; omega)]

/-! ### The scan orders are lexicographically sorted -/

theorem flatMapRows_pairwise (I : List Nat) (hI : I.Pairwise (· < ·)) (e : Nat) :
    (I.flatMap (fun i => (List.range e).map (fun j => (i, j)))).Pairwise lexLt := by
  induction I with
  | nil => simp
  | cons i t ih =>
    rw [List.flatMap_cons, List.pairwise_append]
    rcases List.pairwise_cons.mp hI with ⟨hlt, htp⟩
    refine ⟨?_, ih htp, ?_⟩
    · exact List.Pairwise.map _ (fun a b hab => Or.inr ⟨rfl, hab⟩) (List.pairwise_lt_range e)
    · intro a ha b hb
      obtain ⟨ja, _, rfl⟩ := List.mem_map.mp ha
      obtain ⟨i', hi', hb'⟩ := List.mem_flatMap.mp hb
      obtain ⟨jb, _, rfl⟩ := List.mem_map.mp hb'
      exact Or.inl (hlt i' hi')

theorem scanPairs_pairwise (n m : Nat) : (scanPairs n m).Pairwise lexLt :=
  flatMapRows_pairwise (List.range n) (List.pairwise_lt_range n) m

theorem windowPairs_pairwise (s len e : Nat) : (windowPairs s len e).Pairwise lexLt :=
  flatMapRows_pairwise (List.range' s (len - s)) (List.pairwise_lt_range' s (len - s)) e

theorem mem_scanPairs {n m : Nat} {p : Nat × Nat} :
    p ∈ scanPairs n m ↔ p.1 < n ∧ p.2 < m := by
  rcases p with ⟨i, j⟩
  simp only [scanPairs, List.mem_flatMap, List.mem_map, List.mem_range, Prod.mk.injEq]
  constructor
  · rintro ⟨i', hi', j', hj', rfl, rfl⟩
    exact ⟨hi', hj'⟩
  · rintro ⟨hi, hj⟩
    exact ⟨i, hi, j, hj, rfl, rfl⟩

theorem mem_windowPairs {s len e : Nat} {p : Nat × Nat} :
    p ∈ windowPairs s len e ↔ s ≤ p.1 ∧ p.1 < s + (len - s) ∧ p.2 < e := by
  rcases p with ⟨i, j⟩
  simp only [windowPairs, List.mem_flatMap, List.mem_map, List.mem_range, List.mem_range'_1,
    Prod.mk.injEq]
  constructor
  · rintro ⟨i', hi', j', hj', rfl, rfl⟩
    exact ⟨hi'.1, hi'.2, hj'⟩
  · rintro ⟨h1, h2, hj⟩
    exact ⟨i, ⟨h1, h2⟩, j, hj, rfl, rfl⟩

/-! ### Elementary facts about `matchLen` -/

theorem commonRun_nil_left (ys : List String) : commonRun [] ys = 0 := by
  cases ys <;> rfl

theorem commonRun_nil_right (xs : List String) : commonRun xs [] = 0 := by
  cases xs <;> rfl

theorem matchLen_zero_left {xs ys : List String} {i j : Nat} (h : xs.length ≤ i) :
    matchLen xs ys i j = 0 := by
  unfold matchLen
  rw [List.drop_eq_nil_iff.mpr h, commonRun_nil_left]

theorem matchLen_zero_right {xs ys : List String} {i j : Nat} (h : ys.length ≤ j) :
    matchLen xs ys i j = 0 := by
  unfold matchLen
  rw [List.drop_eq_nil_iff.mpr h, commonRun_nil_right]

theorem matchLen_pos_elim {xs ys : List String} {i j : Nat}
    (h : 1 ≤ matchLen xs ys i j) : i < xs.length ∧ j < ys.length := by
  constructor
  · by_contra hc
    rw [matchLen_zero_left (by omega)] at h
    omega
  · by_contra hc
    rw [matchLen_zero_right (by omega)] at h
    omega

theorem matchLen_eq_zero_of_getD_ne {xs ys : List String} {i j : Nat}
    (h : xs.getD i "" ≠ ys.getD j "") : matchLen xs ys i j = 0 := by
  by_cases hi : i < xs.length
  · by_cases hj : j < ys.length
    · unfold matchLen
      rw [List.drop_eq_getElem_cons hi, List.drop_eq_getElem_cons hj]
      unfold commonRun
      rw [List.getD_eq_getElem xs "" hi, List.getD_eq_getElem ys "" hj] at h
      simp [h]
    · exact matchLen_zero_right (by omega)
  · exact matchLen_zero_left (by omega)

/-! ### The two step functions are instances of the thresholded step -/

theorem bestStep_eq_stepT (f : Nat × Nat → Nat) : bestStep f = stepT f 1 := by
  funext acc p
  unfold bestStep stepT
  by_cases h : acc.1 < f p
  · have : 1 ≤ f p := by omega
    simp [h, this]
  · simp [h]

theorem heurStep_eq_stepT (pw cw : List String) :
    heurStep pw cw = stepT (fun p => matchLen pw cw p.1 p.2) 3 := by
  funext acc p
  by_cases h : pw.getD p.1 "" = cw.getD p.2 ""
  · simp only [heurStep, stepT, if_pos h]
  · have hz : matchLen pw cw p.1 p.2 = 0 := matchLen_eq_zero_of_getD_ne h
    simp only [heurStep, stepT, if_neg h, hz]
    simp

theorem lexLt_asymm {a b : Nat × Nat} (h1 : lexLt a b) (h2 : lexLt b a) : False := by
  rcases h1 with h | ⟨h, h'⟩ <;> rcases h2 with g | ⟨g, g'⟩ <;> omega

theorem fold_none_iff (f : Nat × Nat → Nat) (T : Nat) (hT : 0 < T) (l : List (Nat × Nat)) :
    (l.foldl (stepT f T) (0, none)).2 = none ↔ ∀ p ∈ l, f p < T := by
  constructor
  · intro h
    by_contra hc
    push_neg at hc
    obtain ⟨p0, hp0, hTp0⟩ := hc
    have hTM : T ≤ listMaxB f 0 l := le_trans hTp0 (le_listMaxB_of_mem f 0 hp0)
    have h0M : 0 < listMaxB f 0 l := by omega
    rw [foldT_high f T l 0 none (by omega) hTM] at h
    obtain ⟨q, hq, hfq⟩ := listMaxB_attained f h0M
    have hsome : (l.find? (fun p => decide (listMaxB f 0 l ≤ f p))).isSome := by
      rw [List.find?_isSome]
      exact ⟨q, hq, by simp [hfq]⟩
    rw [show (l.find? (fun p => decide (listMaxB f 0 l ≤ f p))) = none from h] at hsome
    simp at hsome
  · intro h
    rw [foldT_low f T l 0 none (fun p hp => Or.inr (h p hp))]

theorem fold_some_spec (f : Nat × Nat → Nat) (T : Nat) (hT : 0 < T) (l : List (Nat × Nat))
    (hpw : l.Pairwise lexLt) (q : Nat × Nat)
    (h : (l.foldl (stepT f T) (0, none)).2 = some q) :
    q ∈ l ∧ T ≤ f q ∧ (l.foldl (stepT f T) (0, none)).1 = f q ∧
    (∀ p ∈ l, f p ≤ f q) ∧ (∀ p ∈ l, f p = f q → q = p ∨ lexLt q p) := by
  have hnotall : ¬ ∀ p ∈ l, f p < T := by
    intro hall
    rw [foldT_low f T l 0 none (fun p hp => Or.inr (hall p hp))] at h
    simp at h
  push_neg at hnotall
  obtain ⟨p0, hp0, hTp0⟩ := hnotall
  have hTM : T ≤ listMaxB f 0 l := le_trans hTp0 (le_listMaxB_of_mem f 0 hp0)
  have hfold := foldT_high f T l 0 none (by omega) hTM
  rw [hfold] at h
  simp only at h
  rcases List.find?_eq_some.mp h with ⟨hq_pred, as, bs, hsplit, hpre⟩
  have hMq : listMaxB f 0 l ≤ f q := of_decide_eq_true hq_pred
  have hqmem : q ∈ l := by
    rw [hsplit]
    exact List.mem_append_right _ (List.mem_cons_self _ _)
  have hfq : f q = listMaxB f 0 l :=
    le_antisymm (le_listMaxB_of_mem f 0 hqmem) hMq
  refine ⟨hqmem, by omega, ?_, ?_, ?_⟩
  · rw [hfold, hfq]
  · intro p hp
    have := le_listMaxB_of_mem f 0 hp
    omega
  · intro p hp hfp
    rw [hsplit] at hp
    rcases List.mem_append.mp hp with hin | hin
    · exfalso
      have hnp := hpre p hin
      simp only [Bool.not_eq_true', decide_eq_false_iff_not] at hnp
      omega
    · rcases List.mem_cons.mp hin with heq | hin
      · exact Or.inl heq.symm
      · right
        rw [hsplit] at hpw
        have h1 := (List.pairwise_append.mp hpw).2.1
        exact (List.pairwise_cons.mp h1).1 p hin

theorem fold_finds (f : Nat × Nat → Nat) (T : Nat) (hT : 0 < T) (l : List (Nat × Nat))
    (hpw : l.Pairwise lexLt) (q : Nat × Nat) (hq : q ∈ l) (hTq : T ≤ f q)
    (hmax : ∀ p ∈ l, f p ≤ f q) (hleast : ∀ p ∈ l, f p = f q → q = p ∨ lexLt q p) :
    (l.foldl (stepT f T) (0, none)).2 = some q ∧
    (l.foldl (stepT f T) (0, none)).1 = f q := by
  have hfqM : f q = listMaxB f 0 l :=
    le_antisymm (le_listMaxB_of_mem f 0 hq) (listMaxB_le f 0 (f q) (Nat.zero_le _) hmax)
  have hTM : T ≤ listMaxB f 0 l := by omega
  have hfold := foldT_high f T l 0 none (by omega) hTM
  have hsome : (l.find? (fun p => decide (listMaxB f 0 l ≤ f p))).isSome := by
    rw [List.find?_isSome]
    exact ⟨q, hq, by simp [← hfqM]⟩
  obtain ⟨q', hq'⟩ := Option.isSome_iff_exists.mp hsome
  rcases List.find?_eq_some.mp hq' with ⟨hq'_pred, as, bs, hsplit, hpre⟩
  have hMq' : listMaxB f 0 l ≤ f q' := of_decide_eq_true hq'_pred
  have hq'mem : q' ∈ l := by
    rw [hsplit]
    exact List.mem_append_right _ (List.mem_cons_self _ _)
  have hfq' : f q' = f q :=
    le_antisymm (hmax q' hq'mem) (by omega)
  have hqq' : q = q' := by
    rcases hleast q' hq'mem hfq' with h | hlt
    · exact h
    · rw [hsplit] at hq
      rcases List.mem_append.mp hq with hin | hin
      · exfalso
        have hnp := hpre q hin
        simp only [Bool.not_eq_true', decide_eq_false_iff_not] at hnp
        omega
      · rcases List.mem_cons.mp hin with heq | hin
        · exact heq
        · exfalso
          rw [hsplit] at hpw
          have h1 := (List.pairwise_append.mp hpw).2.1
          exact lexLt_asymm hlt ((List.pairwise_cons.mp h1).1 q hin)
  rw [hfold]
  exact ⟨by rw [← hqq'] at hq'; exact hq', by omega⟩

/-! ### Characterization of the exact searches -/

theorem simple_none_iff (xs ys : List String) :
    find_common_substring_simple xs ys = none ↔ ∀ i j, matchLen xs ys i j = 0 := by
  unfold find_common_substring_simple
  rw [bestStep_eq_stepT]
  rw [fold_none_iff _ 1 (by omega)]
  constructor
  · intro h i j
    by_cases hi : i < xs.length
    · by_cases hj : j < ys.length
      · have := h (i, j) (mem_scanPairs.mpr ⟨hi, hj⟩)
        simpa using this
      · exact matchLen_zero_right (by omega)
    · exact matchLen_zero_left (by omega)
  · intro h p _
    have := h p.1 p.2
    omega

theorem simple_some_spec (xs ys : List String) (q : Nat × Nat)
    (h : find_common_substring_simple xs ys = some q) :
    1 ≤ matchLen xs ys q.1 q.2 ∧
    (∀ i j, matchLen xs ys i j ≤ matchLen xs ys q.1 q.2) ∧
    (∀ i j, matchLen xs ys i j = matchLen xs ys q.1 q.2 →
      q = (i, j) ∨ lexLt q (i, j)) := by
  unfold find_common_substring_simple at h
  rw [bestStep_eq_stepT] at h
  obtain ⟨hmem, hT, hfst, hmax, hleast⟩ :=
    fold_some_spec _ 1 (by omega) _ (scanPairs_pairwise xs.length ys.length) q h
  refine ⟨hT, ?_, ?_⟩
  · intro i j
    by_cases hi : i < xs.length
    · by_cases hj : j < ys.length
      · exact hmax (i, j) (mem_scanPairs.mpr ⟨hi, hj⟩)
      · rw [matchLen_zero_right (by omega)]; omega
    · rw [matchLen_zero_left (by omega)]; omega
  · intro i j heq
    by_cases hi : i < xs.length
    · by_cases hj : j < ys.length
      · exact hleast (i, j) (mem_scanPairs.mpr ⟨hi, hj⟩) heq
      · rw [matchLen_zero_right (by omega)] at heq; omega
    · rw [matchLen_zero_left (by omega)] at heq; omega

theorem simple_finds (xs ys : List String) (i j : Nat)
    (h1 : 1 ≤ matchLen xs ys i j)
    (hmax : ∀ i' j', matchLen xs ys i' j' ≤ matchLen xs ys i j)
    (hleast : ∀ i' j', matchLen xs ys i' j' = matchLen xs ys i j →
      (i, j) = (i', j') ∨ lexLt (i, j) (i', j')) :
    find_common_substring_simple xs ys = some (i, j) := by
  unfold find_common_substring_simple
  rw [bestStep_eq_stepT]
  have hmem : (i, j) ∈ scanPairs xs.length ys.length :=
    mem_scanPairs.mpr ⟨(matchLen_pos_elim h1).1, (matchLen_pos_elim h1).2⟩
  exact (fold_finds _ 1 (by omega) _ (scanPairs_pairwise xs.length ys.length) (i, j)
    hmem h1 (fun p _ => hmax p.1 p.2) (fun p _ hp => hleast p.1 p.2 hp)).1

theorem foldl_filter_noop {α β : Type} (step : β → α → β) (Q : α → Bool) (l : List α)
    (hno : ∀ p ∈ l, Q p = false → ∀ acc, step acc p = acc) :
    ∀ b, (l.filter Q).foldl step b = l.foldl step b := by
  induction l with
  | nil => intro b; rfl
  | cons x t ih =>
    intro b
    have hno' : ∀ p ∈ t, Q p = false → ∀ acc, step acc p = acc :=
      fun p hp => hno p (List.mem_cons_of_mem x hp)
    by_cases hx : Q x
    · rw [List.filter_cons_of_pos hx, List.foldl_cons, List.foldl_cons, ih hno']
    · rw [List.filter_cons_of_neg (by simpa using hx), List.foldl_cons,
        hno x (List.mem_cons_self x t) (by simpa using hx) b, ih hno']

theorem optimized_eq_simple (xs ys : List String) :
    find_common_substring_optimized xs ys = find_common_substring_simple xs ys := by
  unfold find_common_substring_optimized find_common_substring_simple
  have hlist :
      (List.range xs.length).flatMap (fun i =>
        ((List.range ys.length).filter
          (fun j => ys.getD j "" = xs.getD i "")).map (fun j => (i, j))) =
      (scanPairs xs.length ys.length).filter
        (fun p => ys.getD p.2 "" = xs.getD p.1 "") := by
    unfold scanPairs
    rw [List.filter_flatMap]
    apply List.flatMap_congr
    intro i _
    rw [List.filter_map]
    rfl
  rw [hlist, foldl_filter_noop]
  intro p _ hQ acc
  have hne : ys.getD p.2 "" ≠ xs.getD p.1 "" := by simpa using hQ
  have hz : matchLen xs ys p.1 p.2 = 0 :=
    matchLen_eq_zero_of_getD_ne (fun hc => hne hc.symm)
  unfold bestStep
  simp [hz]

/-! ### Characterization of the heuristic window scan -/

theorem heuristic_none_iff (prev curr : String) :
    cleanup_overlap_heuristic prev curr = none ↔
      ∀ i j, (splitWhitespace prev).length - min ((splitWhitespace prev).length / 5) 50 ≤ i →
        i < (splitWhitespace prev).length →
        j < min (min ((splitWhitespace prev).length / 5) 50) (splitWhitespace curr).length →
        matchLen (splitWhitespace prev) (splitWhitespace curr) i j < 3 := by
  simp only [cleanup_overlap_heuristic]
  set pw := splitWhitespace prev with hpw
  set cw := splitWhitespace curr with hcw
  by_cases hemp : pw = [] ∨ cw = []
  · rw [if_pos hemp]
    simp only [true_iff]
    rcases hemp with h | h
    · intro i j h1 h2 h3
      rw [h] at h2
      simp at h2
    · intro i j h1 h2 h3
      rw [h] at h3
      simp at h3
  · rw [if_neg hemp]
    rw [heurStep_eq_stepT]
    have hW : (pw.length - min (pw.length / 5) 50) + (pw.length - (pw.length - min (pw.length / 5) 50)) = pw.length := by
      have : min (pw.length / 5) 50 ≤ pw.length := le_trans (min_le_left _ _) (Nat.div_le_self _ _)
      omega
    constructor
    · intro h i j h1 h2 h3
      have hnone : ((windowPairs (pw.length - min (pw.length / 5) 50) pw.length
          (min (min (pw.length / 5) 50) cw.length)).foldl
          (stepT (fun p => matchLen pw cw p.1 p.2) 3) (0, none)).2 = none := by
        by_contra hc
        rcases Option.ne_none_iff_exists'.mp hc with ⟨q, hq⟩
        rw [hq] at h
        simp at h
      have := (fold_none_iff _ 3 (by omega) _).mp hnone (i, j)
        (mem_windowPairs.mpr ⟨h1, by omega, h3⟩)
      simpa using this
    · intro h
      have hnone := (fold_none_iff (fun p => matchLen pw cw p.1 p.2) 3 (by omega)
        (windowPairs (pw.length - min (pw.length / 5) 50) pw.length
          (min (min (pw.length / 5) 50) cw.length))).mpr (by
        intro p hp
        rcases mem_windowPairs.mp hp with ⟨g1, g2, g3⟩
        exact h p.1 p.2 g1 (by omega) g3)
      rw [hnone]

theorem heuristic_finds (prev curr : String) (i j : Nat)
    (hw : 3 ≤ matchLen (splitWhitespace prev) (splitWhitespace curr) i j)
    (hii : (splitWhitespace prev).length - min ((splitWhitespace prev).length / 5) 50 ≤ i)
    (hi : i < (splitWhitespace prev).length)
    (hj : j < min (min ((splitWhitespace prev).length / 5) 50) (splitWhitespace curr).length)
    (hmax : ∀ i' j',
      (splitWhitespace prev).length - min ((splitWhitespace prev).length / 5) 50 ≤ i' →
      i' < (splitWhitespace prev).length →
      j' < min (min ((splitWhitespace prev).length / 5) 50) (splitWhitespace curr).length →
      matchLen (splitWhitespace prev) (splitWhitespace curr) i' j' ≤
        matchLen (splitWhitespace prev) (splitWhitespace curr) i j)
    (hleast : ∀ i' j',
      (splitWhitespace prev).length - min ((splitWhitespace prev).length / 5) 50 ≤ i' →
      i' < (splitWhitespace prev).length →
      j' < min (min ((splitWhitespace prev).length / 5) 50) (splitWhitespace curr).length →
      matchLen (splitWhitespace prev) (splitWhitespace curr) i' j' =
        matchLen (splitWhitespace prev) (splitWhitespace curr) i j →
      (i, j) = (i', j') ∨ lexLt (i, j) (i', j')) :
    cleanup_overlap_heuristic prev curr =
      some (joinWords ((splitWhitespace prev).take i),
            joinWords ((splitWhitespace curr).drop
              (j + matchLen (splitWhitespace prev) (splitWhitespace curr) i j))) := by
  simp only [cleanup_overlap_heuristic]
  set pw := splitWhitespace prev with hpw
  set cw := splitWhitespace curr with hcw
  have hpne : pw ≠ [] := by
    intro h
    rw [h] at hi
    simp at hi
  have hcne : cw ≠ [] := by
    intro h
    rw [h] at hj
    simp at hj
  rw [if_neg (by simp [hpne, hcne])]
  rw [heurStep_eq_stepT]
  have hWle : min (pw.length / 5) 50 ≤ pw.length :=
    le_trans (min_le_left _ _) (Nat.div_le_self _ _)
  have hfold := fold_finds (fun p => matchLen pw cw p.1 p.2) 3 (by omega)
    (windowPairs (pw.length - min (pw.length / 5) 50) pw.length
      (min (min (pw.length / 5) 50) cw.length))
    (windowPairs_pairwise _ _ _) (i, j)
    (mem_windowPairs.mpr ⟨hii, by omega, hj⟩) hw
    (by
      intro p hp
      rcases mem_windowPairs.mp hp with ⟨g1, g2, g3⟩
      exact hmax p.1 p.2 g1 (by omega) g3)
    (by
      intro p hp hfp
      rcases mem_windowPairs.mp hp with ⟨g1, g2, g3⟩
      exact hleast p.1 p.2 g1 (by omega) g3 hfp)
  rw [hfold.1, hfold.2]

/-! ### String-level plumbing -/

theorem String.mk_ne_empty {l : List Char} (h : l ≠ []) : String.mk l ≠ "" := by
  intro hc
  exact h (congrArg String.data hc)

theorem splitWsAux_ne_empty : ∀ (cs acc : List Char), ∀ w ∈ splitWsAux cs acc, w ≠ "" := by
  intro cs
  induction cs with
  | nil =>
    intro acc w hw
    unfold splitWsAux at hw
    by_cases h : acc = []
    · rw [if_pos h] at hw
      cases hw
    · rw [if_neg h] at hw
      rcases List.mem_singleton.mp hw with rfl
      exact String.mk_ne_empty (by simpa using h)
  | cons c cs ih =>
    intro acc w hw
    unfold splitWsAux at hw
    by_cases hws : c.isWhitespace
    · rw [if_pos hws] at hw
      by_cases h : acc = []
      · rw [if_pos h] at hw
        exact ih [] w hw
      · rw [if_neg h] at hw
        rcases List.mem_cons.mp hw with rfl | hw'
        · exact String.mk_ne_empty (by simpa using h)
        · exact ih [] w hw'
    · rw [if_neg hws] at hw
      exact ih (c :: acc) w hw

theorem splitWhitespace_ne_empty (s : String) : ∀ w ∈ splitWhitespace s, w ≠ "" :=
  splitWsAux_ne_empty s.data []

theorem joinWords_ne_empty (w : String) (ws : List String) (hw : w ≠ "") :
    joinWords (w :: ws) ≠ "" := by
  cases ws with
  | nil => exact hw
  | cons v vs =>
    show w ++ " " ++ joinWords (v :: vs) ≠ ""
    intro hc
    have hdata := congrArg String.data hc
    rw [String.data_append, String.data_append] at hdata
    rcases List.append_eq_nil.mp hdata with ⟨h1, _⟩
    rcases List.append_eq_nil.mp h1 with ⟨h2, _⟩
    apply hw
    cases w
    subst h2
    rfl

theorem preprocess_length_le (s : String) :
    (preprocess_words s).length ≤ (splitWhitespace s).length := by
  unfold preprocess_words
  exact le_trans (List.length_filter_le _ _) (by rw [List.length_map])

/-! ### Reductions of `longest_common_word_substring` -/

theorem lcws_none_short (s1 s2 : String)
    (h : (preprocess_words s1).length < 2 ∨ (preprocess_words s2).length < 2) :
    longest_common_word_substring s1 s2 = none := by
  simp only [longest_common_word_substring]
  by_cases hemp : s1 = "" ∨ s2 = ""
  · rw [if_pos hemp]
  · rw [if_neg hemp, if_pos h]

theorem lcws_eq_simple (s1 s2 : String) (h1 : s1 ≠ "") (h2 : s2 ≠ "")
    (h3 : 2 ≤ (preprocess_words s1).length) (h4 : 2 ≤ (preprocess_words s2).length) :
    longest_common_word_substring s1 s2 =
      find_common_substring_simple (preprocess_words s1) (preprocess_words s2) := by
  simp only [longest_common_word_substring]
  rw [if_neg (by simp [h1, h2]), if_neg (by omega)]
  by_cases h5 : (preprocess_words s1).length * (preprocess_words s2).length < 1000
  · rw [if_pos h5]
  · rw [if_neg h5, optimized_eq_simple]

/-! ### Reductions of `cleanup_overlap` -/

theorem cleanup_overlap_of_lcws_none (r : TranscriptionResult) (prev cur : String)
    (ht : r.transcription = some cur)
    (h : longest_common_word_substring prev cur = none) :
    cleanup_overlap r prev = none := by
  unfold cleanup_overlap
  rw [ht]
  by_cases hemp : prev = "" ∨ cur = ""
  · simp only [if_pos hemp]
  · simp only [if_neg hemp, h]

theorem cleanup_overlap_of_lcws_some (r : TranscriptionResult) (prev cur : String)
    (ht : r.transcription = some cur) (hp : prev ≠ "") (hc : cur ≠ "")
    (i j : Nat) (h : longest_common_word_substring prev cur = some (i, j))
    (hj : j < (splitWhitespace cur).length) :
    cleanup_overlap r prev =
      some (joinWords ((splitWhitespace prev).take i),
            joinWords ((splitWhitespace cur).drop j)) := by
  unfold cleanup_overlap
  rw [ht]
  have hcond : ¬(prev = "" ∨ cur = "") := by simp [hp, hc]
  have hdne : (splitWhitespace cur).drop j ≠ [] := by
    rw [Ne, List.drop_eq_nil_iff]
    omega
  have hne : joinWords ((splitWhitespace cur).drop j) ≠ "" := by
    rcases hl : (splitWhitespace cur).drop j with _ | ⟨w, ws⟩
    · exact absurd hl hdne
    · refine joinWords_ne_empty w ws ?_
      apply splitWhitespace_ne_empty cur
      refine List.mem_of_mem_drop (n := j) ?_
      rw [hl]
      exact List.mem_cons_self _ _
  simp only [if_neg hcond, h]
  rw [if_pos (Or.inr hne)]

/-! ### A concrete result record for witnesses -/

/-- A minimal concrete `TranscriptionResult` carrying a given transcription,
used to exercise the overlap-cleanup methods on concrete inputs. -/
def mkResult (t : Option String) : TranscriptionResult :=
  { path := ""
    input := { data := [], sample_rate := 16000, channels := 1, device := "" }
    speaker_embedding := []
    transcription := t
    timestamp := 0
    error := none
    start_time := 0
    end_time := 0 }

/-! ### Claims C9, C6, C10 -/

/-- Claim C9: the two exact-variant search paths agree on every pair of token
lists, so the `n*m < 1000` switch inside `longest_common_word_substring` never
changes the returned value (the function always returns what the simple path
would return). -/
theorem C9_paths_agree :
    (∀ xs ys : List String,
      find_common_substring_optimized xs ys = find_common_substring_simple xs ys) ∧
    (∀ s1 s2 : String, longest_common_word_substring s1 s2 =
      (if s1 = "" ∨ s2 = "" then none
       else if (preprocess_words s1).length < 2 ∨ (preprocess_words s2).length < 2 then none
       else find_common_substring_simple (preprocess_words s1) (preprocess_words s2))) := by
  refine ⟨optimized_eq_simple, ?_⟩
  intro s1 s2
  simp only [longest_common_word_substring]
  by_cases h1 : s1 = "" ∨ s2 = ""
  · rw [if_pos h1, if_pos h1]
  · rw [if_neg h1, if_neg h1]
    by_cases h2 : (preprocess_words s1).length < 2 ∨ (preprocess_words s2).length < 2
    · rw [if_pos h2, if_pos h2]
    · rw [if_neg h2, if_neg h2]
      by_cases h3 : (preprocess_words s1).length * (preprocess_words s2).length < 1000
      · rw [if_pos h3]
      · rw [if_neg h3, optimized_eq_simple]

/-- Claim C6: whenever either search path returns a pair `(i, j)`, the common
run there is of maximal length among all index pairs, and `(i, j)` is smallest
in `i` and then in `j` among the pairs attaining that length. -/
theorem C6_tie_break (xs ys : List String) (i j : Nat)
    (h : find_common_substring_simple xs ys = some (i, j) ∨
         find_common_substring_optimized xs ys = some (i, j)) :
    1 ≤ matchLen xs ys i j ∧
    (∀ i' j', matchLen xs ys i' j' ≤ matchLen xs ys i j) ∧
    (∀ i' j', matchLen xs ys i' j' = matchLen xs ys i j →
      i < i' ∨ (i = i' ∧ j ≤ j')) := by
  have hs : find_common_substring_simple xs ys = some (i, j) := by
    rcases h with h | h
    · exact h
    · rw [optimized_eq_simple] at h
      exact h
  obtain ⟨h1, h2, h3⟩ := simple_some_spec xs ys (i, j) hs
  refine ⟨h1, h2, ?_⟩
  intro i' j' heq
  rcases h3 i' j' heq with heq2 | hlt
  · have hfst : i = i' := congrArg Prod.fst heq2
    have hsnd : j = j' := congrArg Prod.snd heq2
    omega
  · simp only [lexLt] at hlt
    omega

/-- Witness for C6 at a concrete tie: in `["a","b"]` vs `["b","a"]` both
`(0,1)` and `(1,0)` give runs of length 1; the scan returns `(0,1)`. -/
theorem C6_witness :
    find_common_substring_simple ["a", "b"] ["b", "a"] = some (0, 1) ∧
    1 ≤ matchLen ["a", "b"] ["b", "a"] 0 1 ∧
    matchLen ["a", "b"] ["b", "a"] 1 0 ≤ matchLen ["a", "b"] ["b", "a"] 0 1 ∧
    (matchLen ["a", "b"] ["b", "a"] 1 0 = matchLen ["a", "b"] ["b", "a"] 0 1 →
      0 < 1 ∨ (0 = 1 ∧ 1 ≤ 0)) := by
  have h : find_common_substring_simple ["a", "b"] ["b", "a"] = some (0, 1) := by decide
  have hc := C6_tie_break ["a", "b"] ["b", "a"] 0 1 (Or.inl h)
  exact ⟨h, hc.1, hc.2.1 1 0, fun hq => hc.2.2 1 0 hq⟩

/-- Claim C10: when either input normalizes to fewer than two tokens,
`longest_common_word_substring` returns `none` and hence the resolver returns
`none`, even when a shared normalized token run of length 1 exists. -/
theorem C10_short_cutoff (s1 s2 : String) (r : TranscriptionResult)
    (ht : r.transcription = some s2)
    (h : (preprocess_words s1).length < 2 ∨ (preprocess_words s2).length < 2) :
    longest_common_word_substring s1 s2 = none ∧ cleanup_overlap r s1 = none := by
  have hn := lcws_none_short s1 s2 h
  exact ⟨hn, cleanup_overlap_of_lcws_none r s1 s2 ht hn⟩

/-- Witness for C10: `"hello"` vs `"hello world"` share a length-1 run at
`(0,0)`, yet the cutoff makes both the search and the resolver return
`none`. -/
theorem C10_witness :
    (preprocess_words "hello").length < 2 ∧
    matchLen (preprocess_words "hello") (preprocess_words "hello world") 0 0 = 1 ∧
    longest_common_word_substring "hello" "hello world" = none ∧
    cleanup_overlap (mkResult (some "hello world")) "hello" = none := by
  have h := C10_short_cutoff "hello" "hello world" (mkResult (some "hello world")) rfl
    (Or.inl (by decide))
  exact ⟨by decide, by decide, h.1, h.2⟩

/-! ### Claims C3, C4, C5, C8 -/

/-- Claim C4: for every segment and every outcome of the underlying
transcription, the result built by `run_stt` has exactly one of
`transcription` / `error` set, carries an empty embedding on failure, copies
`start_time` / `end_time` from the segment, and takes `path` and `timestamp`
from the arguments. -/
theorem C4_result_shape (segment : SpeechSegment) (device : String)
    (path : String) (ts : Nat) :
    (∀ outcome : Except String String,
      (((run_stt segment device outcome path ts).transcription.isSome ∧
        (run_stt segment device outcome path ts).error = none) ∨
       ((run_stt segment device outcome path ts).transcription = none ∧
        (run_stt segment device outcome path ts).error.isSome ∧
        (run_stt segment device outcome path ts).speaker_embedding = [])) ∧
      (run_stt segment device outcome path ts).start_time = segment.start ∧
      (run_stt segment device outcome path ts).end_time = segment.stop ∧
      (run_stt segment device outcome path ts).path = path ∧
      (run_stt segment device outcome path ts).timestamp = ts) ∧
    (∀ t, (run_stt segment device (Except.ok t) path ts).transcription = some t ∧
          (run_stt segment device (Except.ok t) path ts).error = none ∧
          (run_stt segment device (Except.ok t) path ts).speaker_embedding =
            segment.embedding) ∧
    (∀ e, (run_stt segment device (Except.error e) path ts).transcription = none ∧
          (run_stt segment device (Except.error e) path ts).error = some e ∧
          (run_stt segment device (Except.error e) path ts).speaker_embedding = []) := by
  refine ⟨?_, ?_, ?_⟩
  · intro outcome
    cases outcome <;> simp [run_stt]
  · intro t
    simp [run_stt]
  · intro e
    simp [run_stt]

/-- Concrete segment used to refute claim C5 on the non-macOS path. -/
def segC5 : SpeechSegment :=
  { samples := [], sample_rate := 16000, start := 3, stop := 4, embedding := [] }

/-- Counterexample to claim C5 as stated: on the non-macOS path the dispatch
loop passes the chunk's base timestamp through unchanged, so the emitted
timestamp is `100`, not `100 + round(segment.start) = 103`. -/
theorem C5_counterexample :
    (run_stt segC5 "dev" (Except.ok "t") "p"
      (segment_timestamp false 100 segC5.start)).timestamp = 100 ∧
    100 + (rustRound segC5.start).toNat = 103 ∧
    (run_stt segC5 "dev" (Except.ok "t") "p"
      (segment_timestamp false 100 segC5.start)).timestamp ≠
      100 + (rustRound segC5.start).toNat := by
  refine ⟨rfl, by decide, by decide⟩

/-- Claim C5 amended: the emitted timestamp is
`base_timestamp + round(segment.start)` exactly on macOS (the platform that
requires per-segment stamping); on every other platform it is the unmodified
base timestamp. -/
theorem C5_timestamp_amended (isMacos : Bool) (base : Nat) (segment : SpeechSegment)
    (device : String) (outcome : Except String String) (path : String) :
    (run_stt segment device outcome path
      (segment_timestamp isMacos base segment.start)).timestamp =
      if isMacos then base + (rustRound segment.start).toNat else base := by
  cases outcome <;> cases isMacos <;> simp [run_stt, segment_timestamp]

/-- Claim C3: with a valid mel configuration, the remote engine is attempted
first (with an absent api key passed as `""`); on remote success its
transcript is returned, on remote failure the local engine is run on the same
buffer and its outcome is returned; with the local engine selected only the
local engine runs. -/
theorem C3_engine_routing (numMelBins : Nat) (buf : List Rat) (key : Option String)
    (remote : String → List Rat → Except String String)
    (localW : MelTable → List Rat → Except String String)
    (mel : MelTable) (hmel : melFilters numMelBins = some mel) :
    (∀ t, remote (key.getD "") buf = Except.ok t →
      stt numMelBins buf AudioTranscriptionEngine.Deepgram key remote localW =
        Except.ok t) ∧
    (∀ e, remote (key.getD "") buf = Except.error e →
      stt numMelBins buf AudioTranscriptionEngine.Deepgram key remote localW =
        localW mel buf) ∧
    stt numMelBins buf AudioTranscriptionEngine.Whisper key remote localW =
      localW mel buf := by
  unfold stt
  rw [hmel]
  refine ⟨?_, ?_, ?_⟩
  · intro t h
    simp [h]
  · intro e h
    simp [h]
  · simp

/-- Witness for C3: with mel bins 80, a failing remote stub and a succeeding
local stub, the remote engine falls back to the local result; the local engine
returns it directly. -/
theorem C3_witness :
    melFilters 80 = some MelTable.mel80 ∧
    stt 80 [] AudioTranscriptionEngine.Deepgram none (fun _ _ => Except.error "net")
      (fun _ _ => Except.ok "local") = Except.ok "local" ∧
    stt 80 [] AudioTranscriptionEngine.Whisper none (fun _ _ => Except.error "net")
      (fun _ _ => Except.ok "local") = Except.ok "local" := by
  have h := C3_engine_routing 80 [] none (fun _ _ => Except.error "net")
    (fun _ _ => Except.ok "local") MelTable.mel80 (by decide)
  exact ⟨by decide, h.2.1 "net" rfl, h.2.2⟩

/-- Claim C8: with `num_mel_bins` neither 80 nor 128 `stt` fails with the
configuration error for every engine and every collaborator behaviour (so no
transcription attempt influences the outcome); with 80 or 128 the matching
embedded table is selected and handed to the local engine, and no
configuration error occurs. -/
theorem C8_mel_bins (numMelBins : Nat) (buf : List Rat)
    (engine : AudioTranscriptionEngine) (key : Option String)
    (remote : String → List Rat → Except String String)
    (localW : MelTable → List Rat → Except String String)
    (h80 : numMelBins ≠ 80) (h128 : numMelBins ≠ 128) :
    melFilters numMelBins = none ∧
    stt numMelBins buf engine key remote localW =
      Except.error ("unexpected num_mel_bins " ++ toString numMelBins) ∧
    melFilters 80 = some MelTable.mel80 ∧ melFilters 128 = some MelTable.mel128 ∧
    (∀ k2, stt 80 buf AudioTranscriptionEngine.Whisper k2 remote localW =
      localW MelTable.mel80 buf) ∧
    (∀ k2, stt 128 buf AudioTranscriptionEngine.Whisper k2 remote localW =
      localW MelTable.mel128 buf) := by
  have hnone : melFilters numMelBins = none := by
    unfold melFilters
    rw [if_neg h80, if_neg h128]
  refine ⟨hnone, ?_, by decide, by decide, ?_, ?_⟩
  · unfold stt
    rw [hnone]
  · intro k2
    simp [stt, melFilters]
  · intro k2
    simp [stt, melFilters]

/-- Witness for C8 at `num_mel_bins = 99`: the configuration error is
returned. -/
theorem C8_witness :
    melFilters 99 = none ∧
    stt 99 [] AudioTranscriptionEngine.Whisper none (fun _ _ => Except.ok "r")
      (fun _ _ => Except.ok "l") =
      Except.error ("unexpected num_mel_bins " ++ toString 99) := by
  have h := C8_mel_bins 99 [] AudioTranscriptionEngine.Whisper none
    (fun _ _ => Except.ok "r") (fun _ _ => Except.ok "l") (by decide) (by decide)
  exact ⟨h.1, h.2.1⟩

/-! ### Claim C1 -/

/-- Counterexample to claim C1 as stated: `"hi"` and `"hi there"` are
non-empty, handled by the exact variant, and share a normalized run of length
1 at `(0, 0)`, with neither rewritten string empty — yet `cleanup_overlap`
returns `none`, because `longest_common_word_substring` cuts off any input
with fewer than two normalized tokens. -/
theorem C1_counterexample :
    matchLen (preprocess_words "hi") (preprocess_words "hi there") 0 0 = 1 ∧
    cleanup_overlap (mkResult (some "hi there")) "hi" = none := by
  exact ⟨by decide, by decide⟩

/-- Claim C1 amended: for non-empty strings whose normalized token lists each
have at least two tokens, if the longest common normalized run (first by
smallest `i`, then smallest `j`) starts at `(i, j)`, the exact variant returns
the original whitespace tokens of `previous` before `i` and of `current` from
`j` on, each re-joined by single spaces; and it returns `none` iff no common
run of length at least 1 exists (the both-rewritten-strings-empty case cannot
occur under these hypotheses). -/
theorem C1_exact_split_amended (prev cur : String) (r : TranscriptionResult)
    (ht : r.transcription = some cur) (hp : prev ≠ "") (hc : cur ≠ "")
    (h2p : 2 ≤ (preprocess_words prev).length)
    (h2c : 2 ≤ (preprocess_words cur).length) :
    (∀ i j, 1 ≤ matchLen (preprocess_words prev) (preprocess_words cur) i j →
      (∀ i' j', matchLen (preprocess_words prev) (preprocess_words cur) i' j' ≤
        matchLen (preprocess_words prev) (preprocess_words cur) i j) →
      (∀ i' j', matchLen (preprocess_words prev) (preprocess_words cur) i' j' =
        matchLen (preprocess_words prev) (preprocess_words cur) i j →
        i < i' ∨ (i = i' ∧ j ≤ j')) →
      cleanup_overlap r prev =
        some (joinWords ((splitWhitespace prev).take i),
              joinWords ((splitWhitespace cur).drop j))) ∧
    (cleanup_overlap r prev = none ↔
      ∀ i j, matchLen (preprocess_words prev) (preprocess_words cur) i j = 0) := by
  have hlc := lcws_eq_simple prev cur hp hc h2p h2c
  constructor
  · intro i j h1 hmax hleast
    have hfind : find_common_substring_simple (preprocess_words prev)
        (preprocess_words cur) = some (i, j) := by
      apply simple_finds _ _ i j h1 hmax
      intro i' j' heq
      rcases hleast i' j' heq with hlt | ⟨heq2, hle⟩
      · exact Or.inr (Or.inl hlt)
      · by_cases hj : j = j'
        · left
          rw [heq2, hj]
        · right
          right
          exact ⟨heq2, by omega⟩
    have hjlt : j < (splitWhitespace cur).length :=
      lt_of_lt_of_le (matchLen_pos_elim h1).2 (preprocess_length_le cur)
    exact cleanup_overlap_of_lcws_some r prev cur ht hp hc i j
      (hlc.trans hfind) hjlt
  · constructor
    · intro hnone
      by_contra hcontra
      push_neg at hcontra
      obtain ⟨i0, j0, hne0⟩ := hcontra
      have hns : find_common_substring_simple (preprocess_words prev)
          (preprocess_words cur) ≠ none := by
        rw [Ne, simple_none_iff]
        push_neg
        exact ⟨i0, j0, hne0⟩
      obtain ⟨q, hq⟩ := Option.ne_none_iff_exists'.mp hns
      obtain ⟨hq1, _, _⟩ := simple_some_spec _ _ q hq
      have hjlt : q.2 < (splitWhitespace cur).length :=
        lt_of_lt_of_le (matchLen_pos_elim hq1).2 (preprocess_length_le cur)
      have hsome := cleanup_overlap_of_lcws_some r prev cur ht hp hc q.1 q.2
        (hlc.trans (by rw [← hq])) hjlt
      rw [hnone] at hsome
      cases hsome
    · intro hall
      have hn : find_common_substring_simple (preprocess_words prev)
          (preprocess_words cur) = none := (simple_none_iff _ _).mpr hall
      exact cleanup_overlap_of_lcws_none r prev cur ht (hlc.trans hn)

/-- Witness for the amended C1 on the spec's own scenario:
`resolve("the quick brown fox", "brown fox jumps over")` splits at the run
`brown fox` (`i = 2`, `j = 0`) into `("the quick", "brown fox jumps over")`. -/
theorem C1_witness :
    cleanup_overlap (mkResult (some "brown fox jumps over")) "the quick brown fox" =
      some ("the quick", "brown fox jumps over") := by
  have hq := simple_some_spec (preprocess_words "the quick brown fox")
    (preprocess_words "brown fox jumps over") (2, 0) (by decide)
  have h := (C1_exact_split_amended "the quick brown fox" "brown fox jumps over"
    (mkResult (some "brown fox jumps over")) rfl (by decide) (by decide)
    (by decide) (by decide)).1 2 0 hq.1 hq.2.1
    (by
      intro i' j' heq
      rcases hq.2.2 i' j' heq with heq2 | hlt
      · have hfst : 2 = i' := congrArg Prod.fst heq2
        have hsnd : 0 = j' := congrArg Prod.snd heq2
        omega
      · simp only [lexLt] at hlt
        omega)
  rw [h]
  decide

/-! ### Claim C7 -/

/-- Counterexample to claim C7 (idempotence of the resolver):
`resolve("a q b c d", "b c d a x")` returns `("a q", "b c d a x")` (the
maximal run `b c d` starts at `i = 2`, `j = 0`), and applying the resolver to
that output returns `some ("", "a x")` — not absent — because `a q` and
`b c d a x` still share the single token `a`. -/
theorem C7_counterexample :
    cleanup_overlap (mkResult (some "b c d a x")) "a q b c d" =
      some ("a q", "b c d a x") ∧
    cleanup_overlap (mkResult (some "b c d a x")) "a q" = some ("", "a x") := by
  exact ⟨by decide, by decide⟩

/-- Claim C7 amended: re-applying the resolver to its own output is only
guaranteed to return absent when the returned `new_previous` normalizes to
fewer than two tokens (in particular whenever it is empty); full idempotence
fails in general. -/
theorem C7_idempotent_amended (p c : String) (r r2 : TranscriptionResult)
    (ht : r.transcription = some c) (p' c' : String)
    (h : cleanup_overlap r p = some (p', c'))
    (ht2 : r2.transcription = some c')
    (hshort : (preprocess_words p').length < 2) :
    cleanup_overlap r2 p' = none :=
  cleanup_overlap_of_lcws_none r2 p' c' ht2 (lcws_none_short p' c' (Or.inl hshort))

/-- Witness for the amended C7: `resolve("z a b c", "a b c d")` returns
`("z", "a b c d")`; since `"z"` normalizes to a single token, the second
application returns absent. -/
theorem C7_witness :
    cleanup_overlap (mkResult (some "a b c d")) "z a b c" = some ("z", "a b c d") ∧
    (preprocess_words "z").length < 2 ∧
    cleanup_overlap (mkResult (some "a b c d")) "z" = none := by
  have h1 : cleanup_overlap (mkResult (some "a b c d")) "z a b c" =
      some ("z", "a b c d") := by decide
  exact ⟨h1, by decide,
    C7_idempotent_amended "z a b c" "a b c d" (mkResult (some "a b c d"))
      (mkResult (some "a b c d")) rfl "z" "a b c d" h1 rfl (by decide)⟩

/-! ### Claim C2 -/

/-- Claim C2 amended: when either input exceeds 10000 characters the fast
variant delegates to the heuristic; the heuristic restricts match starts to
the last `W` tokens of `previous` and the first `min W curr_tokens` tokens of
`current` with `W = min (prev_tokens / 5) 50`, counts only runs of length at
least 3, and on the first maximal such run `(i, j)` of length `L` returns the
tokens of `previous` before the run and the tokens of `current` after the run
— the overlap is removed from both sides rather than kept at the start of
`new_current`; otherwise it returns absent. -/
theorem C2_heuristic_amended (prev curr : String) (r : TranscriptionResult)
    (ht : r.transcription = some curr)
    (hlong : 10000 < prev.length ∨ 10000 < curr.length) :
    cleanup_overlap_fast r prev = cleanup_overlap_heuristic prev curr ∧
    (cleanup_overlap_heuristic prev curr = none ↔
      ∀ i j, (splitWhitespace prev).length - min ((splitWhitespace prev).length / 5) 50 ≤ i →
        i < (splitWhitespace prev).length →
        j < min (min ((splitWhitespace prev).length / 5) 50) (splitWhitespace curr).length →
        matchLen (splitWhitespace prev) (splitWhitespace curr) i j < 3) ∧
    (∀ i j, 3 ≤ matchLen (splitWhitespace prev) (splitWhitespace curr) i j →
      (splitWhitespace prev).length - min ((splitWhitespace prev).length / 5) 50 ≤ i →
      i < (splitWhitespace prev).length →
      j < min (min ((splitWhitespace prev).length / 5) 50) (splitWhitespace curr).length →
      (∀ i' j',
        (splitWhitespace prev).length - min ((splitWhitespace prev).length / 5) 50 ≤ i' →
        i' < (splitWhitespace prev).length →
        j' < min (min ((splitWhitespace prev).length / 5) 50) (splitWhitespace curr).length →
        matchLen (splitWhitespace prev) (splitWhitespace curr) i' j' ≤
          matchLen (splitWhitespace prev) (splitWhitespace curr) i j) →
      (∀ i' j',
        (splitWhitespace prev).length - min ((splitWhitespace prev).length / 5) 50 ≤ i' →
        i' < (splitWhitespace prev).length →
        j' < min (min ((splitWhitespace prev).length / 5) 50) (splitWhitespace curr).length →
        matchLen (splitWhitespace prev) (splitWhitespace curr) i' j' =
          matchLen (splitWhitespace prev) (splitWhitespace curr) i j →
        i < i' ∨ (i = i' ∧ j ≤ j')) →
      cleanup_overlap_heuristic prev curr =
        some (joinWords ((splitWhitespace prev).take i),
              joinWords ((splitWhitespace curr).drop
                (j + matchLen (splitWhitespace prev) (splitWhitespace curr) i j)))) := by
  refine ⟨?_, heuristic_none_iff prev curr, ?_⟩
  · unfold cleanup_overlap_fast
    rw [ht]
    show (if 10000 < prev.length ∨ 10000 < curr.length then
        cleanup_overlap_heuristic prev curr else cleanup_overlap r prev) =
      cleanup_overlap_heuristic prev curr
    rw [if_pos hlong]
  · intro i j hw h1 h2 h3 hmax hleast
    apply heuristic_finds prev curr i j hw h1 h2 h3 hmax
    intro i' j' g1 g2 g3 heq
    rcases hleast i' j' g1 g2 g3 heq with hlt | ⟨heq2, hle⟩
    · exact Or.inr (Or.inl hlt)
    · by_cases hj : j = j'
      · left
        rw [heq2, hj]
      · right
        right
        exact ⟨heq2, by omega⟩

/-- The single large token used to push the previous transcript over the
10000-character routing threshold. -/
def zToken : String := String.mk (List.replicate 10001 'z')

/-- A previous transcript longer than 10000 characters with 15 whitespace
tokens, ending in the run `a b c`. -/
def longPrev : String :=
  String.mk (List.replicate 10001 'z' ++ " p q r s t u v w x y n a b c".data)

theorem replicate_append_cons (n : Nat) (c : Char) (acc : List Char) :
    List.replicate n c ++ c :: acc = c :: (List.replicate n c ++ acc) := by
  induction n with
  | zero => rfl
  | succ m ih =>
    rw [List.replicate_succ, List.cons_append, ih, List.cons_append]

theorem splitWsAux_replicate (k : Nat) (cs acc : List Char) :
    splitWsAux (List.replicate k 'z' ++ cs) acc =
      splitWsAux cs (List.replicate k 'z' ++ acc) := by
  induction k generalizing acc with
  | zero => simp
  | succ n ih =>
    rw [List.replicate_succ, List.cons_append, splitWsAux]
    rw [if_neg (by decide : ¬('z'.isWhitespace = true))]
    rw [ih, replicate_append_cons, List.cons_append]

theorem splitWhitespace_longPrev :
    splitWhitespace longPrev =
      zToken :: ["p", "q", "r", "s", "t", "u", "v", "w", "x", "y", "n", "a", "b", "c"] := by
  show splitWsAux (List.replicate 10001 'z' ++ " p q r s t u v w x y n a b c".data) [] = _
  rw [splitWsAux_replicate, List.append_nil]
  have hrep : ¬(List.replicate 10001 'z' = []) := by
    intro h
    have hl := congrArg List.length h
    rw [List.length_replicate, List.length_nil] at hl
    omega
  show splitWsAux (' ' :: "p q r s t u v w x y n a b c".data) (List.replicate 10001 'z') = _
  rw [splitWsAux]
  rw [if_pos (by decide : (' '.isWhitespace = true))]
  rw [if_neg hrep]
  rw [List.reverse_replicate]
  rfl

theorem longPrev_length : 10000 < longPrev.length := by
  show 10000 < (List.replicate 10001 'z' ++ " p q r s t u v w x y n a b c".data).length
  rw [List.length_append, List.length_replicate]
  omega

theorem heur_longPrev :
    cleanup_overlap_heuristic longPrev "a b c d" =
      some (joinWords (zToken :: ["p", "q", "r", "s", "t", "u", "v", "w", "x", "y", "n"]),
            "d") := by
  unfold cleanup_overlap_heuristic
  rw [splitWhitespace_longPrev]
  generalize zToken = Z
  simp only [List.length_cons, List.length_nil]
  rw [show splitWhitespace "a b c d" = ["a", "b", "c", "d"] from rfl]
  norm_num
  refine ⟨⟨by simp, by simp⟩, ?_⟩
  rfl

/-- Counterexample to claim C2 as stated: `longPrev` (over 10000 characters,
ending in the tokens `a b c`) against `"a b c d"` triggers the heuristic,
which finds the window run `a b c` of length 3 — but the returned
`new_current` is `"d"`: the overlap is dropped from both outputs, not kept at
the boundary of `new_current` (which the claim says should be
`"a b c d"`). -/
theorem C2_counterexample :
    (cleanup_overlap_fast (mkResult (some "a b c d")) longPrev).map (fun pr => pr.2) =
      some "d" ∧ ("d" : String) ≠ "a b c d" := by
  have hfast : cleanup_overlap_fast (mkResult (some "a b c d")) longPrev =
      cleanup_overlap_heuristic longPrev "a b c d" := by
    unfold cleanup_overlap_fast
    show (if 10000 < longPrev.length ∨ 10000 < ("a b c d" : String).length then
        cleanup_overlap_heuristic longPrev "a b c d"
      else cleanup_overlap (mkResult (some "a b c d")) longPrev) =
      cleanup_overlap_heuristic longPrev "a b c d"
    rw [if_pos (Or.inl longPrev_length)]
  rw [hfast, heur_longPrev]
  exact ⟨rfl, by decide⟩

/-- Witness for the amended C2: on the over-10000-character `longPrev` the
fast variant delegates to the heuristic, and the heuristic does find the
length-3 window run (it does not return absent). -/
theorem C2_witness :
    cleanup_overlap_fast (mkResult (some "a b c d")) longPrev =
      cleanup_overlap_heuristic longPrev "a b c d" ∧
    cleanup_overlap_heuristic longPrev "a b c d" ≠ none := by
  have h := C2_heuristic_amended longPrev "a b c d" (mkResult (some "a b c d")) rfl
    (Or.inl longPrev_length)
  refine ⟨h.1, ?_⟩
  rw [heur_longPrev]
  simp
